import Mathlib

/-!
Verification of the Raft consensus core of the `distributed_systems`
repository against its specification.

The repository ships the hosted-simulation adapters (`raft/sim`), the
embedded timer (`raft/embassy-sim`) and the `LogReplicationManager` test
suite; the manager itself lives in `raft/core`, whose replication sources
are not part of this tree.  Definitions below that embed the missing
manager are therefore modelled from the specification (its §4.1/§4.3 step
lists), and each such definition says so in its doc comment; everything
else is translated directly from the Rust sources named in the comments.
Log indices are 1-based `Nat`s, terms are `Nat`s, payloads are `String`s
(the instantiation used by the whole simulation).
-/

namespace DistSys

/-- Node role, from `raft_core::node_state::NodeState`. -/
inductive NodeState where
  | Follower
  | Candidate
  | Leader
deriving DecidableEq

/-- A replicated log entry, from `raft_core::log_entry::LogEntry`
(payloads are `String` in the simulation). -/
structure LogEntry where
  term : Nat
  payload : String
deriving DecidableEq

/-- Modelled from the spec: the `Storage` port (§4.5) as realised by the
sim's `InMemoryStorage` (not under this tree): persisted `current_term`,
`voted_for` and the 1-based ordered log. -/
structure Storage where
  current_term : Nat
  voted_for : Option Nat
  log : List LogEntry
deriving DecidableEq

/-- Entry at 0-based position `k` of a list (mirrors indexed access into
the stored log; `entryAt l (i-1)` is the log entry at 1-based index `i`). -/
def entryAt {α : Type} : List α → Nat → Option α
  | [], _ => none
  | e :: _, 0 => some e
  | _ :: rest, k + 1 => entryAt rest k

/-- `Storage::last_log_index`: the number of entries (1-based index of the
last entry, 0 on an empty log). -/
def last_log_index (st : Storage) : Nat :=
  st.log.length

/-- `Storage::term_at`: term of the entry at 1-based index `i`; 0 for the
sentinel index 0 and for indices past the end of the log. -/
def term_at (st : Storage) (i : Nat) : Nat :=
  match i with
  | 0 => 0
  | k + 1 => ((entryAt st.log k).map LogEntry.term).getD 0

/-- Entries at 1-based positions in the half-open-from-below interval
`(a, b]` of a log: used for state-machine application. -/
def slice (log : List LogEntry) (a b : Nat) : List LogEntry :=
  (log.drop a).take (b - a)

/-- Modelled from the spec: step 5 of `handle_append_entries` (§4.3).
`j` is the 0-based position of the next incoming entry
(so the first call gets `j = prev_log_index`).  An existing entry with
the same term is left untouched; a conflicting term truncates the log
from that position inclusive before appending; past the end of the log
entries are appended. -/
def mergeEntries (log : List LogEntry) (j : Nat) : List LogEntry → List LogEntry
  | [] => log
  | e :: rest =>
    match entryAt log j with
    | some ex =>
      if ex.term = e.term then mergeEntries log (j + 1) rest
      else mergeEntries (log.take j ++ [e]) (j + 1) rest
    | none => mergeEntries (log ++ [e]) (j + 1) rest

/-- The `AppendEntriesResponse` wire message (`raft_messages::RaftMsg`),
restricted to the fields the replication manager produces. -/
structure AEResponse where
  term : Nat
  success : Bool
  match_index : Nat
deriving DecidableEq

/-- Modelled from the spec: the mutable context a `LogReplicationManager`
call sees — the manager's own fields (`next_index`, `match_index` as
`NodeId → LogIndex` maps, `commit_index`, `last_applied`), the borrowed
`current_term`/`role` and `Storage`, and the applied-payload list of the
sim's `InMemoryStateMachine` (whose `apply` pushes the payload). -/
structure NodeCtx where
  current_term : Nat
  role : NodeState
  storage : Storage
  next_index : List (Nat × Nat)
  match_index : List (Nat × Nat)
  commit_index : Nat
  last_applied : Nat
  state_machine : List String
deriving DecidableEq

/-- Lookup in a `MapCollection` modelled as an association list. -/
def lookup : List (Nat × Nat) → Nat → Option Nat
  | [], _ => none
  | (k, v) :: rest, key => if k = key then some v else lookup rest key

/-- Insert-or-update in a `MapCollection` modelled as an association list. -/
def setKey : List (Nat × Nat) → Nat → Nat → List (Nat × Nat)
  | [], key, v => [(key, v)]
  | (k, w) :: rest, key, v =>
    if k = key then (key, v) :: rest else (k, w) :: setKey rest key v

/-- Modelled from the spec: the universal term preamble (§4.1) together
with §4.3 step 2, as exercised directly on the manager by
`test_safety_step_down_on_higher_term_append_entries`: a higher incoming
term is adopted (persisted, `voted_for` cleared) and the node becomes
Follower; an equal-term AppendEntries makes a Candidate step down. -/
def stepTermPreamble (term : Nat) (c : NodeCtx) : NodeCtx :=
  if c.current_term < term then
    { c with
      current_term := term
      role := NodeState.Follower
      storage := { c.storage with current_term := term, voted_for := none } }
  else if c.role = NodeState.Candidate then { c with role := NodeState.Follower }
  else c

/-- Modelled from the spec: the log-matching rejection test of
`handle_append_entries` step 4 (§4.3). -/
def prevCheckFails (st : Storage) (prev_log_index prev_log_term : Nat) : Bool :=
  decide (0 < prev_log_index) &&
    (decide (last_log_index st < prev_log_index) ||
      decide (term_at st prev_log_index ≠ prev_log_term))

/-- Modelled from the spec: apply entries `(last_applied, n]` to the state
machine in log order (the sim's `InMemoryStateMachine::apply` pushes each
payload) and record `n` as the new `commit_index`, advancing
`last_applied`. -/
def applyUpTo (n : Nat) (c : NodeCtx) : NodeCtx :=
  { c with
    commit_index := n
    state_machine := c.state_machine ++ (slice c.storage.log c.last_applied n).map LogEntry.payload
    last_applied := max c.last_applied n }

/-- Modelled from the spec: steps 5–6 of `handle_append_entries` (§4.3) —
merge the incoming entries into the log, then, if `leader_commit`
exceeds `commit_index`, set `commit_index = min(leader_commit,
last_log_index)` and apply the newly committed entries. -/
def acceptEntries (prev_log_index : Nat) (entries : List LogEntry)
    (leader_commit : Nat) (c : NodeCtx) : NodeCtx :=
  let c2 : NodeCtx :=
    { c with storage := { c.storage with log := mergeEntries c.storage.log prev_log_index entries } }
  if c2.commit_index < leader_commit then
    applyUpTo (min leader_commit (last_log_index c2.storage)) c2
  else c2

/-- Modelled from the spec: `LogReplicationManager::handle_append_entries`
(§4.3 follower-side steps 1–7; timer resets are outside this embedding).
Returns the mutated context and the `AppendEntriesResponse`. -/
def handle_append_entries (term prev_log_index prev_log_term : Nat)
    (entries : List LogEntry) (leader_commit : Nat) (c : NodeCtx) :
    NodeCtx × AEResponse :=
  if term < c.current_term then (c, ⟨c.current_term, false, 0⟩)
  else
    let c1 := stepTermPreamble term c
    if prevCheckFails c1.storage prev_log_index prev_log_term then
      (c1, ⟨c1.current_term, false, 0⟩)
    else
      let c2 := acceptEntries prev_log_index entries leader_commit c1
      (c2, ⟨c2.current_term, true, last_log_index c2.storage⟩)

/-- Cluster size seen by the leader: the tracked peers plus itself. -/
def clusterSize (c : NodeCtx) : Nat :=
  c.match_index.length + 1

/-- Quorum: `⌊cluster_size / 2⌋ + 1` (spec glossary). -/
def majority (c : NodeCtx) : Nat :=
  clusterSize c / 2 + 1

/-- Number of cluster members whose replicated prefix reaches index `n`:
peers counted through `match_index`, the leader itself counted with
`match_index = storage.last_log_index()` (spec §4.3). -/
def countReplicated (c : NodeCtx) (n : Nat) : Nat :=
  (c.match_index.filter (fun p => decide (n ≤ p.2))).length +
    (if n ≤ last_log_index c.storage then 1 else 0)

/-- Modelled from the spec: index `n` is safe to commit — a majority has
replicated it and its entry carries the current term (§4.3 commit
advancement). -/
def commitOK (c : NodeCtx) (n : Nat) : Bool :=
  decide (majority c ≤ countReplicated c n) &&
    decide (term_at c.storage n = c.storage.current_term)

/-- Greatest `n` with `base < n ≤ base + fuel` satisfying `f`, else `base`
(scans downward). -/
def scanGreatest (f : Nat → Bool) (base : Nat) : Nat → Nat
  | 0 => base
  | fuel + 1 => if f (base + fuel + 1) then base + fuel + 1 else scanGreatest f base fuel

/-- Modelled from the spec: commit advancement (§4.3) — move
`commit_index` to the highest committable `N > commit_index` and apply
`(last_applied, N]`, or leave everything unchanged when no such `N`
exists. -/
def advanceCommit (c : NodeCtx) : NodeCtx :=
  let n := scanGreatest (commitOK c) c.commit_index (last_log_index c.storage - c.commit_index)
  if c.commit_index < n then applyUpTo n c else c

/-- Modelled from the spec: the success-branch bookkeeping of
`handle_append_entries_response` (§4.3): `match_index[from] :=
max(match_index[from], match_index_reported)` and `next_index[from] :=
match_index[from] + 1`. -/
def respSuccessUpdate (sender reported : Nat) (c : NodeCtx) : NodeCtx :=
  let m := max ((lookup c.match_index sender).getD 0) reported
  { c with
    match_index := setKey c.match_index sender m
    next_index := setKey c.next_index sender (m + 1) }

/-- Modelled from the spec:
`LogReplicationManager::handle_append_entries_response` (§4.3 leader
side): on success update the peer's indices then attempt commit
advancement; on failure decrement `next_index[from]` by one, bounded
below at 1. -/
def handle_append_entries_response (sender : Nat) (success : Bool)
    (reported : Nat) (c : NodeCtx) : NodeCtx :=
  if success then
    advanceCommit (respSuccessUpdate sender reported c)
  else
    let n0 := (lookup c.next_index sender).getD 1
    { c with next_index := setKey c.next_index sender (max (n0 - 1) 1) }

/-- Modelled from the spec:
`LogReplicationManager::initialize_leader_state` (§4.3): every peer gets
`next_index = last_log_index + 1` and `match_index = 0`. -/
def initialize_leader_state (peers : List Nat) (c : NodeCtx) : NodeCtx :=
  { c with
    next_index := peers.map (fun p => (p, last_log_index c.storage + 1))
    match_index := peers.map (fun p => (p, 0)) }

/-- Modelled from the spec: the Node `handle_message` preamble (§4.1) for
an `AppendEntriesResponse`, with the strict staleness check the spec
mandates (§4.3 failure semantics / §9): a response from a newer term
steps the node down without touching replication state, a response from
an older term is discarded, and only an equal-term response reaches the
replication manager. -/
def handle_response_message (sender msg_term : Nat) (success : Bool)
    (reported : Nat) (c : NodeCtx) : NodeCtx :=
  if c.storage.current_term < msg_term then
    { c with
      current_term := msg_term
      role := NodeState.Follower
      storage := { c.storage with current_term := msg_term, voted_for := none } }
  else if msg_term < c.storage.current_term then c
  else handle_append_entries_response sender success reported c

/-- `ELECTION_TIMEOUT_MS` from `embassy-sim/src/embassy_timer.rs`. -/
def ELECTION_TIMEOUT_MS : Nat := 300

/-- `HEARTBEAT_TIMEOUT_MS` from `embassy-sim/src/embassy_timer.rs`. -/
def HEARTBEAT_TIMEOUT_MS : Nat := 100

/-- `EmbassyTimer` from `embassy-sim/src/embassy_timer.rs`: two optional
deadlines on the monotonic clock (instants as milliseconds). -/
structure EmbassyTimer where
  election_deadline : Option Nat
  heartbeat_deadline : Option Nat
deriving DecidableEq

/-- `EmbassyTimer::reset_election_timer`: set the election deadline to
`Instant::now() + Duration::from_millis(ELECTION_TIMEOUT_MS)`; `now` is
the sampled instant. -/
def reset_election_timer (now : Nat) (t : EmbassyTimer) : EmbassyTimer :=
  { t with election_deadline := some (now + ELECTION_TIMEOUT_MS) }

/-- `CollectionError` from `raft/core/src/node_collection.rs`: `Full` is
its only variant. -/
inductive CollectionError where
  | Full
deriving DecidableEq

/-- `VecNodeCollection` from `raft/sim/src/vec_node_collection.rs`: a
growable vector of node ids. -/
structure VecNodeCollection where
  nodes : List Nat
deriving DecidableEq

/-- `VecNodeCollection::push`: `self.nodes.push(id); Ok(())` — returns the
mutated collection and the `Result`. -/
def VecNodeCollection.push (c : VecNodeCollection) (id : Nat) :
    VecNodeCollection × Except CollectionError Unit :=
  ({ nodes := c.nodes ++ [id] }, Except.ok ())

/-- `VecNodeCollection::len`. -/
def VecNodeCollection.len (c : VecNodeCollection) : Nat :=
  c.nodes.length

/-- `MessageBroker` from `raft/sim/src/message_broker.rs`: a
`HashMap<NodeId, VecDeque<(NodeId, RaftMsg)>>`, embedded as the map from
receiver to its optional queue (`none` = key absent). `M` stands for the
wire-message type. -/
structure MessageBroker (M : Type) where
  queues : Nat → Option (List (Nat × M))

/-- The broker with no queues (`MessageBroker::new`). -/
def brokerEmpty (M : Type) : MessageBroker M :=
  ⟨fun _ => none⟩

/-- `MessageBroker::enqueue`: `queues.entry(to).or_default().push_back((from, msg))`. -/
def enqueue {M : Type} (b : MessageBroker M) (sender receiver : Nat) (msg : M) :
    MessageBroker M :=
  ⟨fun n =>
    if n = receiver then some (((b.queues receiver).getD []) ++ [(sender, msg)])
    else b.queues n⟩

/-- `MessageBroker::dequeue`: pop the front of the receiver's queue if the
queue exists and is nonempty, else `None`; returns the popped pair and the
mutated broker. -/
def dequeue {M : Type} (b : MessageBroker M) (receiver : Nat) :
    Option (Nat × M) × MessageBroker M :=
  match b.queues receiver with
  | none => (none, b)
  | some [] => (none, b)
  | some (x :: rest) =>
    (some x, ⟨fun n => if n = receiver then some rest else b.queues n⟩)

/-- The pending messages for a receiver, front first (an absent queue
holds nothing). -/
def pendingFor {M : Type} (b : MessageBroker M) (receiver : Nat) :
    List (Nat × M) :=
  (b.queues receiver).getD []

/-- Run a list of `(sender, receiver, msg)` enqueues in order. -/
def runEnqueues {M : Type} (b : MessageBroker M) :
    List (Nat × Nat × M) → MessageBroker M
  | [] => b
  | (s, r, m) :: rest => runEnqueues (enqueue b s r m) rest

/-- The `(sender, msg)` pairs a list of enqueue operations directs at one
receiver, in operation order. -/
def sentTo {M : Type} (ops : List (Nat × Nat × M)) (receiver : Nat) :
    List (Nat × M) :=
  (ops.filter (fun t => t.2.1 = receiver)).map (fun t => (t.1, t.2.2))

/-- A fresh follower context over a given persisted term and log, exactly
how the tests construct a manager plus its borrowed state. -/
def ctx0 (ct : Nat) (log : List LogEntry) : NodeCtx :=
  { current_term := ct
    role := NodeState.Follower
    storage := { current_term := ct, voted_for := none, log := log }
    next_index := []
    match_index := []
    commit_index := 0
    last_applied := 0
    state_machine := [] }

/-- Intermediate state of the commit-monotonicity counterexample: a
follower that accepted two term-1 entries with `leader_commit = 2`. -/
def cexMid : NodeCtx :=
  (handle_append_entries 1 0 0 [⟨1, "a"⟩, ⟨1, "b"⟩] 2 (ctx0 1 [])).1

/-- Three-node leader of the `test_liveness_three_node_cluster_majority`
scenario: term 1, two local entries, peers 2 and 3 freshly initialized. -/
def leader3 : NodeCtx :=
  initialize_leader_state [2, 3] (ctx0 1 [⟨1, "cmd1"⟩, ⟨1, "cmd2"⟩])

/-- Follower that committed two entries (first call of
`test_safety_commit_index_never_decreases`), used by the
monotone-commit witness. -/
def monoMid : NodeCtx :=
  (handle_append_entries 2 2 2 [] 2 (ctx0 2 [⟨2, "cmd1"⟩, ⟨2, "cmd2"⟩])).1

/-! Auxiliary lemmas about indexed access. -/

theorem entryAt_eq_none {α : Type} (l : List α) (k : Nat) :
    entryAt l k = none ↔ l.length ≤ k := by
  induction l generalizing k with
  | nil => simp [entryAt]
  | cons e rest ih =>
    cases k with
    | zero => simp [entryAt]
    | succ k => simpa [entryAt, Nat.succ_le_succ_iff] using ih k

theorem lt_length_of_entryAt_eq_some {α : Type} {l : List α} {k : Nat} {e : α}
    (h : entryAt l k = some e) : k < l.length := by
  by_contra hk
  have hnone : entryAt l k = none := (entryAt_eq_none l k).mpr (Nat.le_of_not_lt hk)
  rw [h] at hnone
  exact Option.some_ne_none e hnone


theorem entryAt_append_left {α : Type} {l : List α} (l2 : List α) {k : Nat}
    (h : k < l.length) : entryAt (l ++ l2) k = entryAt l k := by
  induction l generalizing k with
  | nil => exact absurd h (by simp)
  | cons e rest ih =>
    cases k with
    | zero => simp [entryAt]
    | succ k => simpa [entryAt] using ih (Nat.lt_of_succ_lt_succ h)

theorem entryAt_append_self {α : Type} (l : List α) (e : α) :
    entryAt (l ++ [e]) l.length = some e := by
  induction l with
  | nil => simp [entryAt]
  | cons x rest ih => simpa [entryAt] using ih

theorem entryAt_take {α : Type} (l : List α) {m j : Nat} (h : m < j) :
    entryAt (l.take j) m = entryAt l m := by
  induction l generalizing m j with
  | nil => simp
  | cons x rest ih =>
    cases j with
    | zero => exact absurd h (Nat.not_lt_zero m)
    | succ j =>
      cases m with
      | zero => simp [entryAt]
      | succ m => simpa [entryAt] using ih (Nat.lt_of_succ_lt_succ h)

theorem entryAt_isSome_of_lt {α : Type} {l : List α} {k : Nat}
    (h : k < l.length) : ∃ e, entryAt l k = some e := by
  induction l generalizing k with
  | nil => exact absurd h (by simp)
  | cons x rest ih =>
    cases k with
    | zero => exact ⟨x, rfl⟩
    | succ k => exact ih (Nat.lt_of_succ_lt_succ h)

/-! Lemmas about the follower-side merge loop. -/

theorem merge_append_of_le (es : List LogEntry) :
    ∀ (log : List LogEntry) (j : Nat), log.length ≤ j →
      mergeEntries log j es = log ++ es := by
  induction es with
  | nil => intro log j _; simp [mergeEntries]
  | cons e rest ih =>
    intro log j h
    have hA : entryAt log j = none := (entryAt_eq_none log j).mpr h
    simp only [mergeEntries, hA]
    rw [ih (log ++ [e]) (j + 1) (by simp; omega)]
    simp

theorem merge_prefix (es : List LogEntry) :
    ∀ (log : List LogEntry) (j m : Nat), j ≤ log.length → m < j →
      entryAt (mergeEntries log j es) m = entryAt log m := by
  induction es with
  | nil => intro log j m _ _; simp [mergeEntries]
  | cons e rest ih =>
    intro log j m hj hm
    cases hA : entryAt log j with
    | none =>
      have hlen : log.length = j :=
        Nat.le_antisymm ((entryAt_eq_none log j).mp hA) hj
      simp only [mergeEntries, hA]
      rw [ih (log ++ [e]) (j + 1) m (by simp [hlen]) (Nat.lt_succ_of_lt hm)]
      exact entryAt_append_left [e] (hlen ▸ hm)
    | some ex =>
      have hjlt : j < log.length := lt_length_of_entryAt_eq_some hA
      simp only [mergeEntries, hA]
      by_cases ht : ex.term = e.term
      · rw [if_pos ht]
        exact ih log (j + 1) m hjlt (Nat.lt_succ_of_lt hm)
      · rw [if_neg ht]
        have htk : (log.take j).length = j := by
          simp [Nat.min_eq_left hj]
        have h1 : (log.take j ++ [e]).length = j + 1 := by simp [htk]
        rw [ih (log.take j ++ [e]) (j + 1) m (by omega) (Nat.lt_succ_of_lt hm)]
        rw [entryAt_append_left [e] (by omega : m < (log.take j).length)]
        exact entryAt_take log hm

theorem merge_term_at (es : List LogEntry) :
    ∀ (log : List LogEntry) (j : Nat), j ≤ log.length →
      ∀ (k : Nat) (hk : k < es.length),
        (entryAt (mergeEntries log j es) (j + k)).map LogEntry.term =
          some (es.get ⟨k, hk⟩).term := by
  induction es with
  | nil => intro log j _ k hk; exact absurd hk (by simp)
  | cons e rest ih =>
    intro log j hj k hk
    cases hA : entryAt log j with
    | none =>
      have hlen : log.length = j :=
        Nat.le_antisymm ((entryAt_eq_none log j).mp hA) hj
      simp only [mergeEntries, hA]
      cases k with
      | zero =>
        have hpre := merge_prefix rest (log ++ [e]) (j + 1) j
          (by simp [hlen]) (Nat.lt_succ_self j)
        have hself : entryAt (log ++ [e]) j = some e := by
          have h0 := entryAt_append_self log e
          rwa [hlen] at h0
        simp only [Nat.add_zero, hpre, hself, Option.map]
        rfl
      | succ k =>
        have := ih (log ++ [e]) (j + 1) (by simp [hlen]) k
          (Nat.lt_of_succ_lt_succ hk)
        rw [show j + (k + 1) = (j + 1) + k by omega]
        simpa using this
    | some ex =>
      have hjlt : j < log.length := lt_length_of_entryAt_eq_some hA
      simp only [mergeEntries, hA]
      by_cases ht : ex.term = e.term
      · rw [if_pos ht]
        cases k with
        | zero =>
          have hpre := merge_prefix rest log (j + 1) j hjlt (Nat.lt_succ_self j)
          simp only [Nat.add_zero, hpre, hA, Option.map, List.get_cons_zero]
          exact congrArg some ht
        | succ k =>
          have := ih log (j + 1) hjlt k (Nat.lt_of_succ_lt_succ hk)
          rw [show j + (k + 1) = (j + 1) + k by omega]
          simpa using this
      · rw [if_neg ht]
        have htk : (log.take j).length = j := by
          simp [Nat.min_eq_left (Nat.le_of_lt hjlt)]
        cases k with
        | zero =>
          have hpre := merge_prefix rest (log.take j ++ [e]) (j + 1) j
            (by simp [htk]) (Nat.lt_succ_self j)
          have hself : entryAt (log.take j ++ [e]) j = some e := by
            have h0 := entryAt_append_self (log.take j) e
            rwa [htk] at h0
          simp only [Nat.add_zero, hpre, hself, Option.map]
          rfl
        | succ k =>
          have := ih (log.take j ++ [e]) (j + 1) (by simp [htk]) k
            (Nat.lt_of_succ_lt_succ hk)
          rw [show j + (k + 1) = (j + 1) + k by omega]
          simpa using this

theorem merge_idempotent (es : List LogEntry) :
    ∀ (log : List LogEntry) (j : Nat),
      (∀ (k : Nat) (hk : k < es.length),
        (entryAt log (j + k)).map LogEntry.term = some (es.get ⟨k, hk⟩).term) →
      mergeEntries log j es = log := by
  induction es with
  | nil => intro log j _; rfl
  | cons e rest ih =>
    intro log j hmatch
    have h0 := hmatch 0 (by simp)
    rw [Nat.add_zero] at h0
    cases hA : entryAt log j with
    | none => rw [hA] at h0; exact absurd h0 (by simp)
    | some ex =>
      rw [hA] at h0
      have ht : ex.term = e.term := by simpa using h0
      simp only [mergeEntries, hA, if_pos ht]
      refine ih log (j + 1) (fun k hk => ?_)
      have := hmatch (k + 1) (Nat.succ_lt_succ hk)
      rw [show j + (k + 1) = (j + 1) + k by omega] at this
      simpa using this

theorem merge_conflict (es : List LogEntry) :
    ∀ (log : List LogEntry) (j k0 : Nat) (hk0 : k0 < es.length) (ex : LogEntry),
      j ≤ log.length →
      entryAt log (j + k0) = some ex →
      ex.term ≠ (es.get ⟨k0, hk0⟩).term →
      (∀ (k : Nat) (hk : k < k0),
        (entryAt log (j + k)).map LogEntry.term =
          some (es.get ⟨k, Nat.lt_trans hk hk0⟩).term) →
      mergeEntries log j es = log.take (j + k0) ++ es.drop k0 := by
  induction es with
  | nil => intro log j k0 hk0; exact absurd hk0 (by simp)
  | cons e rest ih =>
    intro log j k0 hk0 ex hj hconf hne hpreceding
    cases k0 with
    | zero =>
      rw [Nat.add_zero] at hconf
      have hne0 : ex.term ≠ e.term := hne
      simp only [mergeEntries, hconf, if_neg hne0]
      have hlen1 : (log.take j ++ [e]).length = j + 1 := by
        simp [Nat.min_eq_left hj]
      rw [merge_append_of_le rest (log.take j ++ [e]) (j + 1) (Nat.le_of_eq hlen1)]
      simp
    | succ k0 =>
      have h0 := hpreceding 0 (Nat.succ_pos k0)
      rw [Nat.add_zero] at h0
      cases hA : entryAt log j with
      | none => rw [hA] at h0; exact absurd h0 (by simp)
      | some ex0 =>
        rw [hA] at h0
        have ht : ex0.term = e.term := by simpa using h0
        simp only [mergeEntries, hA, if_pos ht]
        have hrec := ih log (j + 1) k0 (Nat.lt_of_succ_lt_succ hk0) ex
          (lt_length_of_entryAt_eq_some hA)
          (by rw [show (j + 1) + k0 = j + (k0 + 1) by omega]; exact hconf)
          (by simpa using hne)
          (fun k hk => by
            have := hpreceding (k + 1) (Nat.succ_lt_succ hk)
            rw [show j + (k + 1) = (j + 1) + k by omega] at this
            simpa using this)
        rw [hrec]
        rw [show (j + 1) + k0 = j + (k0 + 1) by omega]
        rfl

theorem merge_length (es : List LogEntry) (log : List LogEntry) (j : Nat)
    (hj : j ≤ log.length) : j + es.length ≤ (mergeEntries log j es).length := by
  cases es with
  | nil =>
    simpa [mergeEntries] using hj
  | cons e rest =>
    have hterm := merge_term_at (e :: rest) log j hj rest.length (by simp)
    rcases hsome : entryAt (mergeEntries log j (e :: rest)) (j + rest.length) with _ | ex
    · rw [hsome] at hterm; exact absurd hterm (by simp)
    · have := lt_length_of_entryAt_eq_some hsome
      simpa [List.length_cons] using this

/-! Lemmas about the downward commit scan. -/

theorem scanGreatest_ge (f : Nat → Bool) (base : Nat) :
    ∀ fuel : Nat, base ≤ scanGreatest f base fuel := by
  intro fuel
  induction fuel with
  | zero => exact Nat.le_refl base
  | succ n ih =>
    by_cases h : f (base + n + 1) = true
    · simp [scanGreatest, h]; omega
    · simp only [scanGreatest, if_neg h]; exact ih

theorem scanGreatest_le (f : Nat → Bool) (base : Nat) :
    ∀ fuel : Nat, scanGreatest f base fuel ≤ base + fuel := by
  intro fuel
  induction fuel with
  | zero => exact Nat.le_refl base
  | succ n ih =>
    by_cases h : f (base + n + 1) = true
    · simp only [scanGreatest, if_pos h]; omega
    · simp only [scanGreatest, if_neg h]; omega

theorem scanGreatest_found (f : Nat → Bool) (base : Nat) :
    ∀ fuel : Nat, scanGreatest f base fuel = base ∨
      (base < scanGreatest f base fuel ∧ f (scanGreatest f base fuel) = true) := by
  intro fuel
  induction fuel with
  | zero => exact Or.inl rfl
  | succ n ih =>
    by_cases h : f (base + n + 1) = true
    · right
      constructor
      · simp only [scanGreatest, if_pos h]; omega
      · simp [scanGreatest, h]
    · simpa only [scanGreatest, if_neg h] using ih

theorem scanGreatest_maximal (f : Nat → Bool) (base : Nat) :
    ∀ fuel N : Nat, scanGreatest f base fuel < N → N ≤ base + fuel →
      f N = false := by
  intro fuel
  induction fuel with
  | zero =>
    intro N h1 h2
    exact absurd (Nat.lt_of_lt_of_le h1 h2) (Nat.lt_irrefl base)
  | succ n ih =>
    intro N h1 h2
    by_cases h : f (base + n + 1) = true
    · rw [scanGreatest, if_pos h] at h1; omega
    · rw [scanGreatest, if_neg h] at h1
      rcases Nat.lt_or_ge N (base + n + 1) with hlt | hge
      · exact ih N h1 (Nat.lt_succ_iff.mp hlt)
      · have : N = base + n + 1 := by omega
        rw [this]
        exact Bool.of_not_eq_true h

theorem commitOK_le_lastLog {c : NodeCtx} {n : Nat}
    (hct : 0 < c.storage.current_term) (h : commitOK c n = true) :
    n ≤ last_log_index c.storage := by
  have hterm : term_at c.storage n = c.storage.current_term := by
    have := (Bool.and_eq_true _ _).mp h
    exact of_decide_eq_true this.2
  cases n with
  | zero => exact Nat.zero_le _
  | succ k =>
    by_contra hgt
    have hlen : c.storage.log.length ≤ k := by
      simp only [last_log_index] at hgt; omega
    have : entryAt c.storage.log k = none := (entryAt_eq_none _ k).mpr hlen
    rw [term_at, this] at hterm
    simp at hterm
    omega

/-! Preservation lemmas: which fields each operation leaves untouched. -/

theorem stepTermPreamble_storage_log (term : Nat) (c : NodeCtx) :
    (stepTermPreamble term c).storage.log = c.storage.log := by
  rw [stepTermPreamble]
  by_cases h : c.current_term < term
  · rw [if_pos h]
  · rw [if_neg h]
    by_cases h2 : c.role = NodeState.Candidate
    · rw [if_pos h2]
    · rw [if_neg h2]

theorem stepTermPreamble_volatile (term : Nat) (c : NodeCtx) :
    (stepTermPreamble term c).commit_index = c.commit_index ∧
      (stepTermPreamble term c).last_applied = c.last_applied ∧
      (stepTermPreamble term c).state_machine = c.state_machine ∧
      (stepTermPreamble term c).next_index = c.next_index ∧
      (stepTermPreamble term c).match_index = c.match_index := by
  rw [stepTermPreamble]
  by_cases h : c.current_term < term
  · rw [if_pos h]; exact ⟨rfl, rfl, rfl, rfl, rfl⟩
  · rw [if_neg h]
    by_cases h2 : c.role = NodeState.Candidate
    · rw [if_pos h2]; exact ⟨rfl, rfl, rfl, rfl, rfl⟩
    · rw [if_neg h2]; exact ⟨rfl, rfl, rfl, rfl, rfl⟩

theorem stepTermPreamble_ct_of_le (term : Nat) (c : NodeCtx)
    (h : ¬ c.current_term < term) :
    (stepTermPreamble term c).current_term = c.current_term ∧
      (stepTermPreamble term c).storage = c.storage := by
  rw [stepTermPreamble, if_neg h]
  by_cases h2 : c.role = NodeState.Candidate
  · rw [if_pos h2]; exact ⟨rfl, rfl⟩
  · rw [if_neg h2]; exact ⟨rfl, rfl⟩

theorem advanceCommit_indices (c : NodeCtx) :
    (advanceCommit c).next_index = c.next_index ∧
      (advanceCommit c).match_index = c.match_index ∧
      (advanceCommit c).storage = c.storage ∧
      (advanceCommit c).current_term = c.current_term := by
  rw [advanceCommit]
  by_cases h : c.commit_index <
      scanGreatest (commitOK c) c.commit_index (last_log_index c.storage - c.commit_index)
  · simp [if_pos h, applyUpTo]
  · simp [if_neg h]

theorem lookup_setKey_self (l : List (Nat × Nat)) (k v : Nat) :
    lookup (setKey l k v) k = some v := by
  induction l with
  | nil => simp [setKey, lookup]
  | cons p rest ih =>
    by_cases h : p.1 = k
    · simp [setKey, h, lookup]
    · simp only [setKey]
      rw [show (p.1, p.2) = p from rfl, if_neg h]
      simpa [lookup, h] using ih

/-- Characterization of `advanceCommit` on any context whose current term
is positive: the new `commit_index` is the greatest committable index
above the old one (unchanged when none exists), and on advancement the
newly committed slice is applied in order. -/
theorem advanceCommit_spec (c : NodeCtx) (hct : 0 < c.storage.current_term) :
    (∀ N, c.commit_index < N → commitOK c N = true →
      N ≤ (advanceCommit c).commit_index) ∧
    ((advanceCommit c).commit_index = c.commit_index ∧
        (advanceCommit c).state_machine = c.state_machine ∧
        (advanceCommit c).last_applied = c.last_applied
      ∨ (c.commit_index < (advanceCommit c).commit_index ∧
          commitOK c ((advanceCommit c).commit_index) = true ∧
          (advanceCommit c).state_machine = c.state_machine ++
            (slice c.storage.log c.last_applied
              ((advanceCommit c).commit_index)).map LogEntry.payload ∧
          (advanceCommit c).last_applied =
            max c.last_applied ((advanceCommit c).commit_index))) := by
  have hge := scanGreatest_ge (commitOK c) c.commit_index
    (last_log_index c.storage - c.commit_index)
  by_cases hlt : c.commit_index <
      scanGreatest (commitOK c) c.commit_index (last_log_index c.storage - c.commit_index)
  · have hres : advanceCommit c = applyUpTo
        (scanGreatest (commitOK c) c.commit_index
          (last_log_index c.storage - c.commit_index)) c := by
      rw [advanceCommit, if_pos hlt]
    constructor
    · intro N hN hOK
      have hNle : N ≤ last_log_index c.storage := commitOK_le_lastLog hct hOK
      have hbound : N ≤ c.commit_index + (last_log_index c.storage - c.commit_index) := by
        omega
      by_contra hgt
      rw [hres] at hgt
      simp only [applyUpTo] at hgt
      have := scanGreatest_maximal (commitOK c) c.commit_index
        (last_log_index c.storage - c.commit_index) N (by omega) hbound
      rw [hOK] at this
      exact Bool.true_eq_false.mp this
    · right
      rcases scanGreatest_found (commitOK c) c.commit_index
          (last_log_index c.storage - c.commit_index) with heq | ⟨_, hOK⟩
      · omega
      · rw [hres]
        exact ⟨hlt, hOK, rfl, rfl⟩
  · have heq : scanGreatest (commitOK c) c.commit_index
        (last_log_index c.storage - c.commit_index) = c.commit_index := by
      omega
    have hres : advanceCommit c = c := by
      rw [advanceCommit, if_neg hlt]
    constructor
    · intro N hN hOK
      have hNle : N ≤ last_log_index c.storage := commitOK_le_lastLog hct hOK
      have hbound : N ≤ c.commit_index + (last_log_index c.storage - c.commit_index) := by
        omega
      have := scanGreatest_maximal (commitOK c) c.commit_index
        (last_log_index c.storage - c.commit_index) N (by omega) hbound
      rw [hOK] at this
      exact absurd this (by simp)
    · left
      rw [hres]
      exact ⟨rfl, rfl, rfl⟩

/-- C1.  Leader commit advancement: after a successful
`handle_append_entries_response`, `commit_index` equals the highest
`N > previous commit_index` such that a majority of the cluster (the
leader counted with `match_index = storage.last_log_index()`) has
`match_index ≥ N` and `storage.term_at(N) == current_term` — i.e. any
such `N` is `≤` the new value and, on advancement, the new value itself
is such an `N`; if no such `N` exists, `commit_index` and the state
machine are unchanged; on advancement all entries in `(last_applied, N]`
are applied in log order. -/
theorem C1_leader_commit_advancement (sender reported : Nat) (c : NodeCtx)
    (hct : 0 < c.storage.current_term) :
    (∀ N, c.commit_index < N → commitOK (respSuccessUpdate sender reported c) N = true →
      N ≤ (handle_append_entries_response sender true reported c).commit_index) ∧
    ((handle_append_entries_response sender true reported c).commit_index = c.commit_index ∧
        (handle_append_entries_response sender true reported c).state_machine = c.state_machine ∧
        (handle_append_entries_response sender true reported c).last_applied = c.last_applied
      ∨ (c.commit_index < (handle_append_entries_response sender true reported c).commit_index ∧
          commitOK (respSuccessUpdate sender reported c)
            ((handle_append_entries_response sender true reported c).commit_index) = true ∧
          (handle_append_entries_response sender true reported c).state_machine =
            c.state_machine ++ (slice c.storage.log c.last_applied
              ((handle_append_entries_response sender true reported c).commit_index)).map
                LogEntry.payload ∧
          (handle_append_entries_response sender true reported c).last_applied =
            max c.last_applied
              ((handle_append_entries_response sender true reported c).commit_index))) :=
  advanceCommit_spec (respSuccessUpdate sender reported c) hct

/-- Witness for C1 at the three-node scenario of
`test_liveness_three_node_cluster_majority`: term 1, two local entries,
peer 2 reports `match_index = 2`; the commit index advances to 2. -/
theorem C1_witness :
    0 < leader3.storage.current_term ∧
      ((∀ N, leader3.commit_index < N → commitOK (respSuccessUpdate 2 2 leader3) N = true →
          N ≤ (handle_append_entries_response 2 true 2 leader3).commit_index) ∧
        ((handle_append_entries_response 2 true 2 leader3).commit_index = leader3.commit_index ∧
            (handle_append_entries_response 2 true 2 leader3).state_machine = leader3.state_machine ∧
            (handle_append_entries_response 2 true 2 leader3).last_applied = leader3.last_applied
          ∨ (leader3.commit_index < (handle_append_entries_response 2 true 2 leader3).commit_index ∧
              commitOK (respSuccessUpdate 2 2 leader3)
                ((handle_append_entries_response 2 true 2 leader3).commit_index) = true ∧
              (handle_append_entries_response 2 true 2 leader3).state_machine =
                leader3.state_machine ++ (slice leader3.storage.log leader3.last_applied
                  ((handle_append_entries_response 2 true 2 leader3).commit_index)).map
                    LogEntry.payload ∧
              (handle_append_entries_response 2 true 2 leader3).last_applied =
                max leader3.last_applied
                  ((handle_append_entries_response 2 true 2 leader3).commit_index)))) :=
  ⟨by decide, C1_leader_commit_advancement 2 2 leader3 (by decide)⟩

/-- C6.  Leader bookkeeping per response from a tracked peer: on success
`match_index[from] = max(match_index[from], reported)` (hence never
decreasing) and `next_index[from] = match_index[from] + 1`; on failure
`next_index[from]` drops by exactly one, bounded below at 1, and
`match_index` is untouched. -/
theorem C6_leader_bookkeeping (sender reported m0 n0 : Nat) (c : NodeCtx)
    (hm : lookup c.match_index sender = some m0)
    (hn : lookup c.next_index sender = some n0) :
    (lookup (handle_append_entries_response sender true reported c).match_index sender =
        some (max m0 reported) ∧
      lookup (handle_append_entries_response sender true reported c).next_index sender =
        some (max m0 reported + 1) ∧
      m0 ≤ max m0 reported) ∧
    (lookup (handle_append_entries_response sender false reported c).next_index sender =
        some (max (n0 - 1) 1) ∧
      (handle_append_entries_response sender false reported c).match_index =
        c.match_index) := by
  have hbr : handle_append_entries_response sender true reported c =
      advanceCommit (respSuccessUpdate sender reported c) := rfl
  constructor
  · have hmatch :
        (handle_append_entries_response sender true reported c).match_index =
          setKey c.match_index sender (max m0 reported) := by
      rw [hbr, (advanceCommit_indices (respSuccessUpdate sender reported c)).2.1]
      simp [respSuccessUpdate, hm]
    have hnext :
        (handle_append_entries_response sender true reported c).next_index =
          setKey c.next_index sender (max m0 reported + 1) := by
      rw [hbr, (advanceCommit_indices (respSuccessUpdate sender reported c)).1]
      simp [respSuccessUpdate, hm]
    rw [hmatch, hnext]
    exact ⟨lookup_setKey_self _ _ _, lookup_setKey_self _ _ _, Nat.le_max_left m0 reported⟩
  · constructor
    · have hres :
          (handle_append_entries_response sender false reported c).next_index =
            setKey c.next_index sender (max (n0 - 1) 1) := by
        simp [handle_append_entries_response, hn]
      rw [hres]
      exact lookup_setKey_self _ _ _
    · simp [handle_append_entries_response]

/-- Witness for C6 on the initialized three-node leader (peer 2 starts at
`match_index = 0`, `next_index = 3`). -/
theorem C6_witness :
    lookup leader3.match_index 2 = some 0 ∧ lookup leader3.next_index 2 = some 3 ∧
      lookup (handle_append_entries_response 2 true 2 leader3).match_index 2 = some (max 0 2) ∧
      lookup (handle_append_entries_response 2 false 2 leader3).next_index 2 =
        some (max (3 - 1) 1) :=
  ⟨by decide, by decide,
    ((C6_leader_bookkeeping 2 2 0 3 leader3 (by decide) (by decide)).1).1,
    ((C6_leader_bookkeeping 2 2 0 3 leader3 (by decide) (by decide)).2).1⟩

/-! Helper lemmas for the follower-side handler. -/

theorem prevCheck_false_of_ok (st : Storage) (p t : Nat)
    (h : p = 0 ∨ (entryAt st.log (p - 1)).map LogEntry.term = some t) :
    prevCheckFails st p t = false := by
  rcases h with h0 | hsome
  · subst h0; simp [prevCheckFails]
  · cases p with
    | zero => simp [prevCheckFails]
    | succ k =>
      cases hA : entryAt st.log k with
      | none =>
        rw [show k + 1 - 1 = k from rfl, hA] at hsome
        exact absurd hsome (by simp)
      | some e =>
        rw [show k + 1 - 1 = k from rfl, hA] at hsome
        have ht : e.term = t := by simpa using hsome
        have hk : k < st.log.length := lt_length_of_entryAt_eq_some hA
        have h1 : ¬ (last_log_index st < k + 1) := by
          simp only [last_log_index]; omega
        have h2 : term_at st (k + 1) = t := by simp [term_at, hA, ht]
        simp [prevCheckFails, h1, h2]

theorem prevOk_le (st : Storage) (p t : Nat)
    (h : p = 0 ∨ (entryAt st.log (p - 1)).map LogEntry.term = some t) :
    p ≤ st.log.length := by
  rcases h with h0 | hsome
  · omega
  · cases p with
    | zero => exact Nat.zero_le _
    | succ k =>
      cases hA : entryAt st.log k with
      | none =>
        rw [show k + 1 - 1 = k from rfl, hA] at hsome
        exact absurd hsome (by simp)
      | some e =>
        exact lt_length_of_entryAt_eq_some hA

theorem acceptEntries_log (p : Nat) (es : List LogEntry) (lc : Nat) (c : NodeCtx) :
    (acceptEntries p es lc c).storage.log = mergeEntries c.storage.log p es := by
  simp only [acceptEntries]
  by_cases h : c.commit_index < lc
  · simp [if_pos h, applyUpTo]
  · simp [if_neg h]

theorem acceptEntries_ct (p : Nat) (es : List LogEntry) (lc : Nat) (c : NodeCtx) :
    (acceptEntries p es lc c).current_term = c.current_term := by
  simp only [acceptEntries]
  by_cases h : c.commit_index < lc
  · simp [if_pos h, applyUpTo]
  · simp [if_neg h]

theorem acceptEntries_commit_pos (p : Nat) (es : List LogEntry) (lc : Nat)
    (c : NodeCtx) (h : c.commit_index < lc) :
    (acceptEntries p es lc c).commit_index =
        min lc (mergeEntries c.storage.log p es).length ∧
      (acceptEntries p es lc c).state_machine = c.state_machine ++
        (slice (mergeEntries c.storage.log p es) c.last_applied
          (min lc (mergeEntries c.storage.log p es).length)).map LogEntry.payload ∧
      (acceptEntries p es lc c).last_applied =
        max c.last_applied (min lc (mergeEntries c.storage.log p es).length) := by
  simp [acceptEntries, if_pos h, applyUpTo, last_log_index]

theorem acceptEntries_commit_neg (p : Nat) (es : List LogEntry) (lc : Nat)
    (c : NodeCtx) (h : ¬ c.commit_index < lc) :
    (acceptEntries p es lc c).commit_index = c.commit_index ∧
      (acceptEntries p es lc c).state_machine = c.state_machine ∧
      (acceptEntries p es lc c).last_applied = c.last_applied := by
  simp [acceptEntries, if_neg h]

theorem handle_append_entries_accepted (term p t : Nat) (es : List LogEntry)
    (lc : Nat) (c : NodeCtx) (hterm : ¬ term < c.current_term)
    (hpass : prevCheckFails (stepTermPreamble term c).storage p t = false) :
    handle_append_entries term p t es lc c =
      (acceptEntries p es lc (stepTermPreamble term c),
        ⟨(acceptEntries p es lc (stepTermPreamble term c)).current_term, true,
          last_log_index (acceptEntries p es lc (stepTermPreamble term c)).storage⟩) := by
  simp only [handle_append_entries]
  rw [if_neg hterm, if_neg (by simp [hpass])]

/-- C2.  Follower accepts from the current leader: when `term` equals
`current_term` and the prev-log check passes (`prev_log_index = 0`, or
the entry at `prev_log_index` has term `prev_log_term`), the follower
appends the entries (each sent entry's term lands at its position and
the log covers them all), returns `{current_term, success = true,
match_index = storage.last_log_index()}`, and when
`leader_commit > commit_index` sets `commit_index =
min(leader_commit, storage.last_log_index())` — also for an
empty-entries heartbeat — applying entries `(last_applied,
commit_index]`; otherwise `commit_index` and the state machine are
untouched. -/
theorem C2_follower_accept (term p t : Nat) (es : List LogEntry) (lc : Nat)
    (c : NodeCtx) (hterm : term = c.current_term)
    (hprev : p = 0 ∨ (entryAt c.storage.log (p - 1)).map LogEntry.term = some t) :
    (handle_append_entries term p t es lc c).2 =
      ⟨c.current_term, true,
        last_log_index (handle_append_entries term p t es lc c).1.storage⟩ ∧
    (c.commit_index < lc →
      (handle_append_entries term p t es lc c).1.commit_index =
          min lc (last_log_index (handle_append_entries term p t es lc c).1.storage) ∧
        (handle_append_entries term p t es lc c).1.state_machine =
          c.state_machine ++ (slice (handle_append_entries term p t es lc c).1.storage.log
            c.last_applied
            ((handle_append_entries term p t es lc c).1.commit_index)).map LogEntry.payload) ∧
    (¬ c.commit_index < lc →
      (handle_append_entries term p t es lc c).1.commit_index = c.commit_index ∧
        (handle_append_entries term p t es lc c).1.state_machine = c.state_machine) ∧
    (∀ (k : Nat) (hk : k < es.length),
      term_at (handle_append_entries term p t es lc c).1.storage (p + k + 1) =
        (es.get ⟨k, hk⟩).term) ∧
    p + es.length ≤ last_log_index (handle_append_entries term p t es lc c).1.storage := by
  have hterm' : ¬ term < c.current_term := by omega
  have hnp : ¬ c.current_term < term := by omega
  obtain ⟨hct1, hst1⟩ := stepTermPreamble_ct_of_le term c hnp
  have hpass : prevCheckFails (stepTermPreamble term c).storage p t = false := by
    rw [hst1]; exact prevCheck_false_of_ok c.storage p t hprev
  have hred := handle_append_entries_accepted term p t es lc c hterm' hpass
  have hj : p ≤ c.storage.log.length := prevOk_le c.storage p t hprev
  have hvol := stepTermPreamble_volatile term c
  have hlog : (handle_append_entries term p t es lc c).1.storage.log =
      mergeEntries c.storage.log p es := by
    rw [hred]
    rw [show (acceptEntries p es lc (stepTermPreamble term c),
        (⟨(acceptEntries p es lc (stepTermPreamble term c)).current_term, true,
          last_log_index (acceptEntries p es lc (stepTermPreamble term c)).storage⟩ :
            AEResponse)).1 = acceptEntries p es lc (stepTermPreamble term c) from rfl]
    rw [acceptEntries_log, hst1]
  refine ⟨?_, ?_, ?_, ?_, ?_⟩
  · rw [hred]
    rw [show (acceptEntries p es lc (stepTermPreamble term c),
        (⟨(acceptEntries p es lc (stepTermPreamble term c)).current_term, true,
          last_log_index (acceptEntries p es lc (stepTermPreamble term c)).storage⟩ :
            AEResponse)).2 = ⟨(acceptEntries p es lc (stepTermPreamble term c)).current_term,
              true, last_log_index (acceptEntries p es lc (stepTermPreamble term c)).storage⟩
        from rfl]
    rw [acceptEntries_ct, hct1]
  · intro hcm
    have hcm1 : (stepTermPreamble term c).commit_index < lc := by rw [hvol.1]; exact hcm
    have hpos := acceptEntries_commit_pos p es lc (stepTermPreamble term c) hcm1
    have haccept_log : (acceptEntries p es lc (stepTermPreamble term c)).storage.log =
        mergeEntries c.storage.log p es := by rw [acceptEntries_log, hst1]
    have hres1 : (handle_append_entries term p t es lc c).1 =
        acceptEntries p es lc (stepTermPreamble term c) := by rw [hred]
    rw [hres1]
    constructor
    · rw [hpos.1, hst1, last_log_index, haccept_log]
    · rw [hpos.2.1, hpos.1, haccept_log, hst1, hvol.2.2.1, hvol.2.1]
  · intro hcm
    have hcm1 : ¬ (stepTermPreamble term c).commit_index < lc := by
      rw [hvol.1]; exact hcm
    have hneg := acceptEntries_commit_neg p es lc (stepTermPreamble term c) hcm1
    have hres1 : (handle_append_entries term p t es lc c).1 =
        acceptEntries p es lc (stepTermPreamble term c) := by rw [hred]
    rw [hres1]
    exact ⟨by rw [hneg.1, hvol.1], by rw [hneg.2.1, hvol.2.2.1]⟩
  · intro k hk
    have hmt := merge_term_at es c.storage.log p hj k hk
    rw [show p + k + 1 = (p + k) + 1 from rfl]
    rw [term_at]
    rw [hlog, hmt]
    rfl
  · have hml := merge_length es c.storage.log p hj
    rw [last_log_index, hlog]
    exact hml

/-- Witness for C2 at the scenario of
`test_liveness_accept_entries_from_leader`: follower at term 2, empty
log, two term-2 entries with `leader_commit = 2`. -/
theorem C2_witness :
    (2 = (ctx0 2 []).current_term) ∧
      (handle_append_entries 2 0 0 [⟨2, "cmd1"⟩, ⟨2, "cmd2"⟩] 2 (ctx0 2 [])).2 =
        ⟨(ctx0 2 []).current_term, true,
          last_log_index
            (handle_append_entries 2 0 0 [⟨2, "cmd1"⟩, ⟨2, "cmd2"⟩] 2 (ctx0 2 [])).1.storage⟩ :=
  ⟨rfl,
    (C2_follower_accept 2 0 0 [⟨2, "cmd1"⟩, ⟨2, "cmd2"⟩] 2 (ctx0 2 []) rfl (Or.inl rfl)).1⟩

theorem term_at_eq_of_log_eq {st1 st2 : Storage} (h : st1.log = st2.log)
    (i : Nat) : term_at st1 i = term_at st2 i := by
  cases i <;> simp [term_at, h]

theorem prevCheckFails_iff (st : Storage) (p t : Nat) :
    prevCheckFails st p t = true ↔
      0 < p ∧ (last_log_index st < p ∨ term_at st p ≠ t) := by
  simp [prevCheckFails]

/-- C3.  Follower rejection with no side effects: `success = false` exactly
when `term < current_term`, or `prev_log_index > 0` and the log is too
short at `prev_log_index` or disagrees there on the term; in every such
case the response is `{current_term, false, 0}` and the log, the commit
index, the state machine and `last_applied` are untouched. -/
theorem C3_follower_reject (term p t : Nat) (es : List LogEntry) (lc : Nat)
    (c : NodeCtx) :
    ((handle_append_entries term p t es lc c).2.success = false ↔
      term < c.current_term ∨ (0 < p ∧
        (last_log_index c.storage < p ∨ term_at c.storage p ≠ t))) ∧
    ((handle_append_entries term p t es lc c).2.success = false →
      (handle_append_entries term p t es lc c).2 =
        ⟨(handle_append_entries term p t es lc c).1.current_term, false, 0⟩ ∧
      (handle_append_entries term p t es lc c).1.storage.log = c.storage.log ∧
      (handle_append_entries term p t es lc c).1.commit_index = c.commit_index ∧
      (handle_append_entries term p t es lc c).1.state_machine = c.state_machine ∧
      (handle_append_entries term p t es lc c).1.last_applied = c.last_applied) := by
  have hlogpre := stepTermPreamble_storage_log term c
  have hlast : last_log_index (stepTermPreamble term c).storage = last_log_index c.storage := by
    rw [last_log_index, last_log_index, hlogpre]
  have hta : ∀ i, term_at (stepTermPreamble term c).storage i = term_at c.storage i :=
    term_at_eq_of_log_eq hlogpre
  have hvol := stepTermPreamble_volatile term c
  by_cases h1 : term < c.current_term
  · have hred : handle_append_entries term p t es lc c =
        (c, ⟨c.current_term, false, 0⟩) := by
      simp only [handle_append_entries]; rw [if_pos h1]
    rw [hred]
    exact ⟨⟨fun _ => Or.inl h1, fun _ => rfl⟩,
      fun _ => ⟨rfl, rfl, rfl, rfl, rfl⟩⟩
  · by_cases h2 : prevCheckFails (stepTermPreamble term c).storage p t = true
    · have hcond : 0 < p ∧ (last_log_index c.storage < p ∨ term_at c.storage p ≠ t) := by
        have := (prevCheckFails_iff _ p t).mp h2
        rw [hlast, hta p] at this
        exact this
      have hred : handle_append_entries term p t es lc c =
          (stepTermPreamble term c, ⟨(stepTermPreamble term c).current_term, false, 0⟩) := by
        simp only [handle_append_entries]; rw [if_neg h1, if_pos h2]
      rw [hred]
      exact ⟨⟨fun _ => Or.inr hcond, fun _ => rfl⟩,
        fun _ => ⟨rfl, hlogpre, hvol.1, hvol.2.2.1, hvol.2.1⟩⟩
    · have h2f : prevCheckFails (stepTermPreamble term c).storage p t = false := by
        revert h2; cases prevCheckFails (stepTermPreamble term c).storage p t <;> simp
      have hred := handle_append_entries_accepted term p t es lc c h1 h2f
      have hsucc : (handle_append_entries term p t es lc c).2.success = true := by
        rw [hred]
      constructor
      · rw [hsucc]
        constructor
        · intro hfalse; exact absurd hfalse (by simp)
        · intro hor
          rcases hor with hlt | hcond
          · exact absurd hlt h1
          · have : prevCheckFails (stepTermPreamble term c).storage p t = true := by
              rw [prevCheckFails_iff, hlast, hta p]
              exact hcond
            rw [this] at h2f
            exact absurd h2f (by simp)
      · intro hfalse
        rw [hsucc] at hfalse
        exact absurd hfalse (by simp)

/-- Witness for C3 at the scenario of
`test_safety_reject_entries_from_stale_term`: a term-3 AppendEntries at a
term-5 follower is rejected and appends nothing. -/
theorem C3_witness :
    (handle_append_entries 3 0 0 [⟨3, "cmd1"⟩] 1 (ctx0 5 [])).2.success = false ∧
      (handle_append_entries 3 0 0 [⟨3, "cmd1"⟩] 1 (ctx0 5 [])).1.storage.log =
        (ctx0 5 []).storage.log :=
  have h := C3_follower_reject 3 0 0 [⟨3, "cmd1"⟩] 1 (ctx0 5 [])
  have hs : (handle_append_entries 3 0 0 [⟨3, "cmd1"⟩] 1 (ctx0 5 [])).2.success = false :=
    h.1.mpr (Or.inl (by decide))
  ⟨hs, (h.2 hs).2.1⟩

/-- C4.  Conflict truncation with idempotent re-append, for an accepted
`handle_append_entries`: if every sent entry already sits at its position
with the same term, the log is left identical; if the first disagreement
with the sent batch is a conflicting term at position
`prev_log_index + k0` (1-based index `prev_log_index + k0 + 1`), the log
is truncated there inclusive and the remaining sent entries are
appended. -/
theorem C4_truncation_idempotence (term p t : Nat) (es : List LogEntry)
    (lc : Nat) (c : NodeCtx) (hterm : ¬ term < c.current_term)
    (hprev : p = 0 ∨ (entryAt c.storage.log (p - 1)).map LogEntry.term = some t) :
    ((∀ (k : Nat) (hk : k < es.length),
        (entryAt c.storage.log (p + k)).map LogEntry.term =
          some ((es.get ⟨k, hk⟩).term)) →
      (handle_append_entries term p t es lc c).1.storage.log = c.storage.log) ∧
    (∀ (k0 : Nat) (hk0 : k0 < es.length) (ex : LogEntry),
      entryAt c.storage.log (p + k0) = some ex →
      ex.term ≠ (es.get ⟨k0, hk0⟩).term →
      (∀ (k : Nat) (hk : k < k0),
        (entryAt c.storage.log (p + k)).map LogEntry.term =
          some ((es.get ⟨k, Nat.lt_trans hk hk0⟩).term)) →
      (handle_append_entries term p t es lc c).1.storage.log =
        c.storage.log.take (p + k0) ++ es.drop k0) := by
  have hlogpre := stepTermPreamble_storage_log term c
  have hj : p ≤ c.storage.log.length := prevOk_le c.storage p t hprev
  have hpass : prevCheckFails (stepTermPreamble term c).storage p t = false := by
    apply prevCheck_false_of_ok
    rw [hlogpre]
    exact hprev
  have hred := handle_append_entries_accepted term p t es lc c hterm hpass
  have hlog : (handle_append_entries term p t es lc c).1.storage.log =
      mergeEntries c.storage.log p es := by
    rw [hred]
    rw [show (acceptEntries p es lc (stepTermPreamble term c),
        (⟨(acceptEntries p es lc (stepTermPreamble term c)).current_term, true,
          last_log_index (acceptEntries p es lc (stepTermPreamble term c)).storage⟩ :
            AEResponse)).1 = acceptEntries p es lc (stepTermPreamble term c) from rfl]
    rw [acceptEntries_log, hlogpre]
  constructor
  · intro hmatch
    rw [hlog]
    exact merge_idempotent es c.storage.log p hmatch
  · intro k0 hk0 ex hconf hne hpreceding
    rw [hlog]
    exact merge_conflict es c.storage.log p k0 hk0 ex hj hconf hne hpreceding

/-- Witness for C4 at the scenario of
`test_safety_append_entries_with_exact_match`: re-delivering the two
entries the follower already stores leaves the log identical. -/
theorem C4_witness :
    (¬ (2 : Nat) < (ctx0 2 [⟨1, "cmd1"⟩, ⟨2, "cmd2"⟩]).current_term) ∧
      (handle_append_entries 2 0 0 [⟨1, "cmd1"⟩, ⟨2, "cmd2"⟩] 2
          (ctx0 2 [⟨1, "cmd1"⟩, ⟨2, "cmd2"⟩])).1.storage.log =
        (ctx0 2 [⟨1, "cmd1"⟩, ⟨2, "cmd2"⟩]).storage.log :=
  ⟨by decide,
    (C4_truncation_idempotence 2 0 0 [⟨1, "cmd1"⟩, ⟨2, "cmd2"⟩] 2
        (ctx0 2 [⟨1, "cmd1"⟩, ⟨2, "cmd2"⟩]) (by decide) (Or.inl rfl)).1
      (by decide)⟩

theorem advanceCommit_commit_mono (c : NodeCtx) :
    c.commit_index ≤ (advanceCommit c).commit_index := by
  rw [advanceCommit]
  by_cases h : c.commit_index <
      scanGreatest (commitOK c) c.commit_index (last_log_index c.storage - c.commit_index)
  · simp only [if_pos h, applyUpTo]; omega
  · simp only [if_neg h]
    exact Nat.le_refl _

/-- C5 counterexample.  The raw operations do admit a decreasing
`commit_index`: a follower that committed index 2 accepts a higher-term
AppendEntries whose first entry conflicts at index 1 — the log is
truncated to a single entry and, because `leader_commit (3) >
commit_index (2)`, step 6 sets `commit_index = min(3, 1) = 1 < 2`. -/
theorem C5_counterexample :
    cexMid.commit_index = 2 ∧
      ((handle_append_entries 2 0 0 [⟨2, "c"⟩] 3 cexMid).1).commit_index = 1 := by
  constructor <;> rfl

/-- C5 (amended).  `commit_index` never decreases across
`handle_append_entries_response`; across `handle_append_entries` it
never decreases as long as the operation leaves the log no shorter than
the current `commit_index` (conflict truncation below `commit_index` is
the single exception, per the counterexample); in particular a
`leader_commit` at or below the current `commit_index` leaves
`commit_index` exactly unchanged. -/
theorem C5_monotone_commit :
    (∀ (sender : Nat) (success : Bool) (reported : Nat) (c : NodeCtx),
      c.commit_index ≤ (handle_append_entries_response sender success reported c).commit_index) ∧
    (∀ (term p t : Nat) (es : List LogEntry) (lc : Nat) (c : NodeCtx),
      lc ≤ c.commit_index →
      ((handle_append_entries term p t es lc c).1).commit_index = c.commit_index) ∧
    (∀ (term p t : Nat) (es : List LogEntry) (lc : Nat) (c : NodeCtx),
      c.commit_index ≤ last_log_index ((handle_append_entries term p t es lc c).1).storage →
      c.commit_index ≤ ((handle_append_entries term p t es lc c).1).commit_index) := by
  refine ⟨?_, ?_, ?_⟩
  · intro sender success reported c
    cases success with
    | false => simp [handle_append_entries_response]
    | true =>
      have hbr : handle_append_entries_response sender true reported c =
          advanceCommit (respSuccessUpdate sender reported c) := rfl
      rw [hbr]
      have := advanceCommit_commit_mono (respSuccessUpdate sender reported c)
      simpa [respSuccessUpdate] using this
  · intro term p t es lc c hlc
    have hvol := stepTermPreamble_volatile term c
    by_cases h1 : term < c.current_term
    · have hred : handle_append_entries term p t es lc c =
          (c, ⟨c.current_term, false, 0⟩) := by
        simp only [handle_append_entries]; rw [if_pos h1]
      rw [hred]
    · by_cases h2 : prevCheckFails (stepTermPreamble term c).storage p t = true
      · have hred : handle_append_entries term p t es lc c =
            (stepTermPreamble term c, ⟨(stepTermPreamble term c).current_term, false, 0⟩) := by
          simp only [handle_append_entries]; rw [if_neg h1, if_pos h2]
        rw [hred]
        exact hvol.1
      · have h2f : prevCheckFails (stepTermPreamble term c).storage p t = false := by
          revert h2; cases prevCheckFails (stepTermPreamble term c).storage p t <;> simp
        have hred := handle_append_entries_accepted term p t es lc c h1 h2f
        have hres1 : (handle_append_entries term p t es lc c).1 =
            acceptEntries p es lc (stepTermPreamble term c) := by rw [hred]
        rw [hres1]
        have hcm : ¬ (stepTermPreamble term c).commit_index < lc := by
          rw [hvol.1]; omega
        rw [(acceptEntries_commit_neg p es lc (stepTermPreamble term c) hcm).1, hvol.1]
  · intro term p t es lc c hlen
    have hvol := stepTermPreamble_volatile term c
    by_cases h1 : term < c.current_term
    · have hred : handle_append_entries term p t es lc c =
          (c, ⟨c.current_term, false, 0⟩) := by
        simp only [handle_append_entries]; rw [if_pos h1]
      rw [hred]
    · by_cases h2 : prevCheckFails (stepTermPreamble term c).storage p t = true
      · have hred : handle_append_entries term p t es lc c =
            (stepTermPreamble term c, ⟨(stepTermPreamble term c).current_term, false, 0⟩) := by
          simp only [handle_append_entries]; rw [if_neg h1, if_pos h2]
        rw [hred]
        rw [hvol.1]
      · have h2f : prevCheckFails (stepTermPreamble term c).storage p t = false := by
          revert h2; cases prevCheckFails (stepTermPreamble term c).storage p t <;> simp
        have hred := handle_append_entries_accepted term p t es lc c h1 h2f
        have hres1 : (handle_append_entries term p t es lc c).1 =
            acceptEntries p es lc (stepTermPreamble term c) := by rw [hred]
        rw [hres1] at hlen ⊢
        have hlog := acceptEntries_log p es lc (stepTermPreamble term c)
        rw [last_log_index, hlog] at hlen
        by_cases hcm : (stepTermPreamble term c).commit_index < lc
        · have hpos := acceptEntries_commit_pos p es lc (stepTermPreamble term c) hcm
          rw [hpos.1]
          rw [hvol.1] at hcm
          exact Nat.le_min.mpr ⟨Nat.le_of_lt hcm, hlen⟩
        · rw [(acceptEntries_commit_neg p es lc (stepTermPreamble term c) hcm).1, hvol.1]

/-- Witness for the amended C5: a follower at `commit_index = 2` receiving
a heartbeat with the lower `leader_commit = 1` keeps `commit_index = 2`
(second call of `test_safety_commit_index_never_decreases`). -/
theorem C5_witness :
    (1 : Nat) ≤ monoMid.commit_index ∧
      ((handle_append_entries 2 2 2 [] 1 monoMid).1).commit_index = monoMid.commit_index :=
  ⟨by decide, C5_monotone_commit.2.1 2 2 2 [] 1 monoMid (by decide)⟩

/-- C7.  Stale responses are strictly discarded: an
`AppendEntriesResponse` whose term is below the node's current term
leaves `next_index`, `match_index` and `commit_index` unchanged — the
reported `match_index` is never applied. -/
theorem C7_stale_response_discarded (sender msg_term : Nat) (success : Bool)
    (reported : Nat) (c : NodeCtx) (hstale : msg_term < c.storage.current_term) :
    (handle_response_message sender msg_term success reported c).next_index = c.next_index ∧
      (handle_response_message sender msg_term success reported c).match_index = c.match_index ∧
      (handle_response_message sender msg_term success reported c).commit_index =
        c.commit_index := by
  have h1 : ¬ c.storage.current_term < msg_term := by omega
  rw [handle_response_message, if_neg h1, if_pos hstale]
  exact ⟨rfl, rfl, rfl⟩

/-- Witness for C7: a term-0 response with a huge `match_index` report
reaching the term-1 leader of `leader3` changes nothing. -/
theorem C7_witness :
    (0 : Nat) < leader3.storage.current_term ∧
      (handle_response_message 2 0 true 5 leader3).match_index = leader3.match_index :=
  ⟨by decide, (C7_stale_response_discarded 2 0 true 5 leader3 (by decide)).2.1⟩

/-- C8.  The embedded timer does NOT randomize: every
`reset_election_timer` sets the deadline to `now` plus the fixed
constant `ELECTION_TIMEOUT_MS = 300` — the drawn duration is the same on
every reset and node, contradicting the spec's `[T, 2T)` uniform-draw
contract. -/
theorem C8_fixed_election_timeout :
    (∀ (now : Nat) (tm : EmbassyTimer),
      (reset_election_timer now tm).election_deadline =
        some (now + ELECTION_TIMEOUT_MS)) ∧
    ELECTION_TIMEOUT_MS = 300 :=
  ⟨fun _ _ => rfl, rfl⟩

/-- C9.  The hosted-simulation node collection is unbounded: `push`
always returns `Ok(())` (so `CollectionError::Full` is never produced),
appends the id at the end preserving insertion order, and grows `len` by
one. -/
theorem C9_push_unbounded (c : VecNodeCollection) (id : Nat) :
    (c.push id).2 = Except.ok () ∧
      (c.push id).1.nodes = c.nodes ++ [id] ∧
      (c.push id).1.len = c.len + 1 := by
  refine ⟨rfl, rfl, ?_⟩
  simp [VecNodeCollection.push, VecNodeCollection.len]

theorem pendingFor_enqueue_self {M : Type} (b : MessageBroker M)
    (s r : Nat) (m : M) :
    pendingFor (enqueue b s r m) r = pendingFor b r ++ [(s, m)] := by
  simp [pendingFor, enqueue]

theorem pendingFor_enqueue_other {M : Type} (b : MessageBroker M)
    (s t r : Nat) (m : M) (h : t ≠ r) :
    pendingFor (enqueue b s t m) r = pendingFor b r := by
  simp [pendingFor, enqueue, if_neg (Ne.symm h)]

theorem pending_runEnqueues {M : Type} (ops : List (Nat × Nat × M)) :
    ∀ (b : MessageBroker M) (r : Nat),
      pendingFor (runEnqueues b ops) r = pendingFor b r ++ sentTo ops r := by
  induction ops with
  | nil => intro b r; simp [runEnqueues, sentTo]
  | cons op rest ih =>
    obtain ⟨s, t, m⟩ := op
    intro b r
    rw [runEnqueues, ih (enqueue b s t m) r]
    by_cases h : t = r
    · subst h
      rw [pendingFor_enqueue_self]
      simp [sentTo, List.filter]
    · rw [pendingFor_enqueue_other b s t r m h]
      simp [sentTo, List.filter, h]

theorem dequeue_spec {M : Type} (b : MessageBroker M) (r : Nat) :
    (dequeue b r).1 = (pendingFor b r).head? ∧
      pendingFor (dequeue b r).2 r = (pendingFor b r).tail := by
  rcases hq : b.queues r with _ | q
  · constructor <;> simp [dequeue, hq, pendingFor]
  · cases q with
    | nil => constructor <;> simp [dequeue, hq, pendingFor]
    | cons x rest => constructor <;> simp [dequeue, hq, pendingFor]

/-- C10.  The simulated broker is per-receiver FIFO: after any sequence
of enqueues from the empty broker, the pending pairs of a receiver are
exactly the pairs sent to it in send order; `dequeue` pops the head and
leaves the tail; `dequeue` is `none` when nothing is pending; and an
enqueue onto an empty queue immediately round-trips through `dequeue`. -/
theorem C10_broker_fifo :
    (∀ (M : Type) (ops : List (Nat × Nat × M)) (r : Nat),
      pendingFor (runEnqueues (brokerEmpty M) ops) r = sentTo ops r) ∧
    (∀ (M : Type) (b : MessageBroker M) (r : Nat),
      (dequeue b r).1 = (pendingFor b r).head? ∧
        pendingFor (dequeue b r).2 r = (pendingFor b r).tail) ∧
    (∀ (M : Type) (b : MessageBroker M) (r : Nat),
      pendingFor b r = [] → (dequeue b r).1 = none) ∧
    (∀ (M : Type) (b : MessageBroker M) (s r : Nat) (m : M),
      pendingFor b r = [] →
      (dequeue (enqueue b s r m) r).1 = some (s, m) ∧
        pendingFor (dequeue (enqueue b s r m) r).2 r = []) := by
  refine ⟨?_, ?_, ?_, ?_⟩
  · intro M ops r
    rw [pending_runEnqueues ops (brokerEmpty M) r]
    rfl
  · intro M b r
    exact dequeue_spec b r
  · intro M b r h
    rw [(dequeue_spec b r).1, h]
    rfl
  · intro M b s r m h
    have hpend : pendingFor (enqueue b s r m) r = [(s, m)] := by
      rw [pendingFor_enqueue_self, h]
      rfl
    constructor
    · rw [(dequeue_spec (enqueue b s r m) r).1, hpend]
      rfl
    · rw [(dequeue_spec (enqueue b s r m) r).2, hpend]
      rfl

/-- Witness for C10: one enqueue to receiver 1 on the empty broker
round-trips through `dequeue`. -/
theorem C10_witness :
    pendingFor (brokerEmpty String) 1 = [] ∧
      (dequeue (enqueue (brokerEmpty String) 2 1 "ping") 1).1 = some (2, "ping") :=
  ⟨rfl, (C10_broker_fifo.2.2.2 String (brokerEmpty String) 2 1 "ping" rfl).1⟩

end DistSys
